import Mathlib

/-!
Verification of pwnlib/atexception.py: a registry of callbacks run when an
unhandled exception reaches the top of the stack, chained behind the
previously installed global exception hook.

The module state is the dict `_handlers` mapping a callable to its stored
`(args, kwargs)`.  We embed the dict as an association list with Python
dict semantics (assignment replaces the value of an existing key in place,
otherwise appends; deletion removes the key's entry).  A callable is
identified by its identity (a `Nat`); what it does when invoked is given by
a `Behavior` function: it either returns normally or raises an exception,
described by its class, its value (message) and the traceback frames of the
raise.  Running the handlers produces a trace of observable events
(callback invocations, printed exception reports, the chained call of the
previously installed hook); an exception escaping the mechanism is the
`Except.error` case.
-/

set_option autoImplicit false

namespace Atexception

/-- A single stack frame of a traceback, identified by the name of the code
object it executes. -/
structure Frame where
  fname : String
deriving DecidableEq

/-- A traceback: the chain of frames from the frame where the exception was
caught (head) down to the raise point.  The empty list plays the role of a
`None` traceback. -/
abbrev Traceback := List Frame

/-- `tb.tb_next`: the traceback with its outermost frame dropped. -/
def tb_next (tb : Traceback) : Traceback := tb.tail

/-- Exception classes, as far as the except clauses in the source
distinguish them: `SystemExit`, `KeyboardInterrupt` (which, like
`SystemExit`, derives from `BaseException` but not from `Exception`), and
ordinary `Exception`-derived classes identified by name. -/
inductive ExcClass where
  | systemExit
  | keyboardInterrupt
  | exception (cname : String)
deriving DecidableEq

/-- Whether the class derives from the ordinary `Exception` base class;
`SystemExit` and `KeyboardInterrupt` do not. -/
def derivesException : ExcClass → Bool
  | .exception _ => true
  | _ => false

/-- Callable identity: dict keys of `_handlers` compare by the callable's
identity. -/
abbrev Func := Nat

/-- An argument value. -/
abbrev Value := Nat

/-- Stored invocation arguments of a callback: positional `args` and
keyword `kwargs`. -/
structure Args where
  pos : List Value
  kw : List (String × Value)
deriving DecidableEq

/-- The `_handlers` dict: a mapping from callable identity to its stored
arguments, embedded as an association list in insertion order. -/
abbrev Registry := List (Func × Args)

/-- The keys of the dict. -/
def keys (st : Registry) : List Func := st.map Prod.fst

/-- `func in _handlers`. -/
def containsKey (st : Registry) (f : Func) : Bool := st.any (fun p => p.1 == f)

/-- `_handlers[func]` as a total lookup: the value stored under a key. -/
def lookup : Registry → Func → Option Args
  | [], _ => none
  | p :: rest, f => if p.1 == f then some p.2 else lookup rest f

/-- `_handlers[func] = (args, kwargs)`: Python dict assignment.  An existing
key keeps its position and gets the new value; a new key is appended. -/
def dictInsert : Registry → Func → Args → Registry
  | [], f, a => [(f, a)]
  | p :: rest, f, a => if p.1 == f then (f, a) :: rest else p :: dictInsert rest f a

/-- `del _handlers[func]`: remove the entry of a key. -/
def dictRemove : Registry → Func → Registry
  | [], _ => []
  | p :: rest, f => if p.1 == f then rest else p :: dictRemove rest f

/-- `register(func, *args, **kwargs)`: store or update the entry of `func`
and return `func` itself. -/
def register (st : Registry) (func : Func) (args : Args) : Registry × Func :=
  (dictInsert st func args, func)

/-- `unregister(func)`: remove the entry of `func` if present, otherwise do
nothing. -/
def unregister (st : Registry) (func : Func) : Registry :=
  if containsKey st func then dictRemove st func else st

/-- Observable events of the crash-time mechanism: the chained invocation of
the previously installed hook with the exception triple, the invocation of a
registered callback with its stored arguments, and a printed exception
report (`traceback.print_exception`) showing a class, a value and the frames
of a traceback. -/
inductive Event where
  | oldHook (typ : ExcClass) (val : String) (tb : Traceback)
  | invoke (func : Func) (args : Args)
  | report (typ : ExcClass) (val : String) (tb : Traceback)
deriving DecidableEq

/-- What invoking a callback does: return normally, or raise an exception
of some class with a value and the traceback frames of the raise. -/
inductive CallResult where
  | ok
  | raises (typ : ExcClass) (val : String) (tb : Traceback)
deriving DecidableEq

/-- Assigns to every callable identity its behavior on given arguments. -/
abbrev Behavior := Func → Args → CallResult

/-- The frame of the `func(*args, **kwargs)` call site inside
`_run_handlers`: the outermost frame of the traceback captured by
`sys.exc_info()` in the except block. -/
def invocationFrame : Frame := ⟨"_run_handlers"⟩

/-- The traceback `sys.exc_info()` returns inside the except block of
`_run_handlers`: the internal invocation frame followed by the frames of the
raising callback. -/
def excInfoTb (tb : Traceback) : Traceback := invocationFrame :: tb

/-- The except clauses of the try statement in `_run_handlers`, in source
order: `except SystemExit: pass`, then the bare `except:`. -/
inductive Clause where
  | exceptSystemExit
  | exceptBare
deriving DecidableEq

/-- Which exceptions a clause catches: `except SystemExit` catches
`SystemExit`; a bare `except` catches every exception, whether or not it
derives from `Exception`. -/
def clauseCatches : Clause → ExcClass → Bool
  | .exceptSystemExit, c => c == .systemExit
  | .exceptBare, _ => true

/-- The clause list of the try statement. -/
def clauses : List Clause := [.exceptSystemExit, .exceptBare]

/-- Handling of one exception raised by a callback, by the try statement in
`_run_handlers`: the first clause that catches it runs.  `except SystemExit:
pass` emits nothing; the bare clause extracts `typ, val, tb = sys.exc_info()`
and prints `traceback.print_exception(typ, val, tb.tb_next)`, i.e. the
report skips the first (internal invocation) frame.  Were no clause to
match, the exception would escape (the `error` case). -/
def handleRaise (typ : ExcClass) (val : String) (tb : Traceback) :
    Except (ExcClass × String × Traceback) (List Event) :=
  match clauses.find? (fun cl => clauseCatches cl typ) with
  | some .exceptSystemExit => .ok []
  | some .exceptBare => .ok [.report typ val (tb_next (excInfoTb tb))]
  | none => .error (typ, val, tb)

/-- `_run_handlers()`: invoke each registered callback with its stored
arguments inside the try statement; an exception no clause catches aborts
the loop and escapes. -/
def run_handlers (b : Behavior) : Registry → Except (ExcClass × String × Traceback) (List Event)
  | [] => .ok []
  | (f, a) :: rest =>
    match b f a with
    | .ok => (run_handlers b rest).map (fun evts => .invoke f a :: evts)
    | .raises typ val tb =>
      match handleRaise typ val tb with
      | .ok reps => (run_handlers b rest).map (fun evts => .invoke f a :: (reps ++ evts))
      | .error e => .error e

/-- `_newhook(typ, val, tb)`: the replacement excepthook.  If a previous
hook was captured at module load (`oldhook`), it is called first with the
same three arguments; then the registered handlers are run. -/
def newhook (oldhook : Bool) (b : Behavior) (st : Registry)
    (typ : ExcClass) (val : String) (tb : Traceback) :
    Except (ExcClass × String × Traceback) (List Event) :=
  (run_handlers b st).map (fun evts =>
    (if oldhook then [Event.oldHook typ val tb] else []) ++ evts)

/-- The events one registry entry contributes: its invocation, followed by a
report when it raises anything but `SystemExit`. -/
def entryEvents (b : Behavior) (p : Func × Args) : List Event :=
  Event.invoke p.1 p.2 ::
    match b p.1 p.2 with
    | .ok => []
    | .raises typ val tb => if typ == .systemExit then [] else [.report typ val tb]

/-- The concatenated events of all registry entries. -/
def eventsOf (b : Behavior) : Registry → List Event
  | [] => []
  | p :: rest => entryEvents b p ++ eventsOf b rest

/-- Recognizes an invocation event of the callable `f`. -/
def isInvokeOf (f : Func) : Event → Bool
  | .invoke g _ => g == f
  | _ => false

/-- Recognizes a printed exception report. -/
def isReport : Event → Bool
  | .report _ _ _ => true
  | _ => false

/-- Whether an entry's callback raises an exception other than
`SystemExit` under the behavior `b`. -/
def raisesNonExit (b : Behavior) (p : Func × Args) : Bool :=
  match b p.1 p.2 with
  | .raises typ _ _ => typ != .systemExit
  | .ok => false

theorem tb_next_excInfoTb (tb : Traceback) : tb_next (excInfoTb tb) = tb := rfl

theorem handleRaise_eq (typ : ExcClass) (val : String) (tb : Traceback) :
    handleRaise typ val tb =
      .ok (if typ == .systemExit then [] else [.report typ val tb]) := by
  cases typ <;> rfl

theorem run_handlers_eq (b : Behavior) (st : Registry) :
    run_handlers b st = .ok (eventsOf b st) := by
  induction st with
  | nil => rfl
  | cons p rest ih =>
    obtain ⟨f, a⟩ := p
    cases hb : b f a with
    | ok => simp [run_handlers, eventsOf, entryEvents, hb, ih, Except.map]
    | raises typ val tb =>
      cases htyp : (typ == ExcClass.systemExit) <;>
        simp [run_handlers, eventsOf, entryEvents, hb, ih, handleRaise_eq,
          htyp, Except.map]

theorem invoke_mem_entryEvents_iff (b : Behavior) (p : Func × Args)
    (f : Func) (a : Args) :
    Event.invoke f a ∈ entryEvents b p ↔ (f, a) = p := by
  obtain ⟨g, c⟩ := p
  cases hb : b g c with
  | ok => simp [entryEvents, hb, Prod.ext_iff]
  | raises typ val tb =>
    cases htyp : (typ == ExcClass.systemExit) <;>
      simp [entryEvents, hb, htyp, Prod.ext_iff]

theorem invoke_mem_eventsOf_iff (b : Behavior) (st : Registry)
    (f : Func) (a : Args) :
    Event.invoke f a ∈ eventsOf b st ↔ (f, a) ∈ st := by
  induction st with
  | nil => simp [eventsOf]
  | cons p rest ih =>
    simp [eventsOf, ih, invoke_mem_entryEvents_iff]

theorem report_mem_eventsOf (b : Behavior) (st : Registry) (f : Func) (a : Args)
    (typ : ExcClass) (val : String) (tb : Traceback)
    (hmem : (f, a) ∈ st) (hb : b f a = .raises typ val tb)
    (hne : typ ≠ .systemExit) :
    Event.report typ val tb ∈ eventsOf b st := by
  induction st with
  | nil => cases hmem
  | cons p rest ih =>
    rcases List.mem_cons.mp hmem with h | h
    · subst h
      have htyp : (typ == ExcClass.systemExit) = false := by
        simp [hne]
      simp [eventsOf, entryEvents, hb, htyp]
    · exact List.mem_append_right _ (ih h)

theorem countP_isInvokeOf_entryEvents (b : Behavior) (p : Func × Args) (f : Func) :
    (entryEvents b p).countP (isInvokeOf f) = if p.1 == f then 1 else 0 := by
  obtain ⟨g, c⟩ := p
  cases hb : b g c with
  | ok => simp [entryEvents, hb, List.countP_cons, isInvokeOf]
  | raises typ val tb =>
    cases htyp : (typ == ExcClass.systemExit) <;>
      simp [entryEvents, hb, htyp, List.countP_cons, isInvokeOf]

theorem countP_isInvokeOf_eventsOf (b : Behavior) (st : Registry) (f : Func) :
    (eventsOf b st).countP (isInvokeOf f) = st.countP (fun p => p.1 == f) := by
  induction st with
  | nil => rfl
  | cons p rest ih =>
    simp [eventsOf, List.countP_append, List.countP_cons, ih,
      countP_isInvokeOf_entryEvents]
    omega

theorem countP_isReport_entryEvents (b : Behavior) (p : Func × Args) :
    (entryEvents b p).countP isReport = if raisesNonExit b p then 1 else 0 := by
  obtain ⟨g, c⟩ := p
  cases hb : b g c with
  | ok => simp [entryEvents, raisesNonExit, hb, List.countP_cons, isReport]
  | raises typ val tb =>
    cases htyp : (typ == ExcClass.systemExit) <;>
      simp [entryEvents, raisesNonExit, hb, htyp, List.countP_cons, isReport, bne]

theorem countP_isReport_eventsOf (b : Behavior) (st : Registry) :
    (eventsOf b st).countP isReport = st.countP (raisesNonExit b) := by
  induction st with
  | nil => rfl
  | cons p rest ih =>
    simp [eventsOf, List.countP_append, List.countP_cons, ih,
      countP_isReport_entryEvents]
    omega

theorem containsKey_iff (st : Registry) (f : Func) :
    containsKey st f = true ↔ f ∈ keys st := by
  simp only [containsKey, keys, List.any_eq_true, List.mem_map, beq_iff_eq]

theorem lookup_dictInsert_self (st : Registry) (f : Func) (a : Args) :
    lookup (dictInsert st f a) f = some a := by
  induction st with
  | nil => simp [dictInsert, lookup]
  | cons p rest ih =>
    by_cases h : p.1 = f
    · simp [dictInsert, lookup, h]
    · simp [dictInsert, lookup, h, ih]

theorem lookup_dictInsert_ne (st : Registry) (f g : Func) (a : Args)
    (hne : g ≠ f) :
    lookup (dictInsert st f a) g = lookup st g := by
  have hfg : f ≠ g := fun hc => hne hc.symm
  induction st with
  | nil => simp [dictInsert, lookup, hfg]
  | cons p rest ih =>
    by_cases h : p.1 = f
    · have hg : p.1 ≠ g := by
        rw [h]
        exact hfg
      simp [dictInsert, lookup, h, hg, hfg]
    · simp [dictInsert, lookup, h, ih]

theorem lookup_dictRemove_ne (st : Registry) (f g : Func) (hne : g ≠ f) :
    lookup (dictRemove st f) g = lookup st g := by
  induction st with
  | nil => simp [dictRemove]
  | cons p rest ih =>
    have hfg : f ≠ g := fun hc => hne hc.symm
    by_cases h : p.1 = f
    · have hg : p.1 ≠ g := by
        rw [h]
        exact hfg
      simp [dictRemove, lookup, h, hg, hfg]
    · simp [dictRemove, lookup, h, ih]

theorem keys_dictInsert (st : Registry) (f : Func) (a : Args) :
    keys (dictInsert st f a) =
      if containsKey st f then keys st else keys st ++ [f] := by
  induction st with
  | nil => simp [dictInsert, keys, containsKey]
  | cons p rest ih =>
    by_cases h : p.1 = f
    · simp [dictInsert, keys, containsKey, h]
    · by_cases hc : containsKey rest f
      · simp only [containsKey, List.any_cons] at hc ⊢
        simp [dictInsert, keys, h, hc, containsKey] at ih ⊢
        simpa [containsKey] using ih
      · simp only [containsKey, List.any_cons] at hc ⊢
        simp [dictInsert, keys, h, hc, containsKey] at ih ⊢
        simpa [containsKey] using ih

theorem nodup_keys_dictInsert (st : Registry) (f : Func) (a : Args)
    (h : (keys st).Nodup) : (keys (dictInsert st f a)).Nodup := by
  rw [keys_dictInsert]
  by_cases hc : containsKey st f
  · simpa [hc] using h
  · have hf : f ∉ keys st := fun hm => hc ((containsKey_iff st f).mpr hm)
    simp [hc, List.nodup_append, h, hf]

theorem mem_iff_lookup (st : Registry) (h : (keys st).Nodup) (f : Func) (c : Args) :
    (f, c) ∈ st ↔ lookup st f = some c := by
  induction st with
  | nil => simp [lookup]
  | cons p rest ih =>
    obtain ⟨g, d⟩ := p
    simp only [keys, List.map_cons, List.nodup_cons] at h
    have ihr := ih (by simpa [keys] using h.2)
    by_cases hgf : g = f
    · subst hgf
      have hnot : (g, c) ∉ rest := fun he =>
        h.1 (List.mem_map.mpr ⟨(g, c), he, rfl⟩)
      simp only [lookup, List.mem_cons, beq_self_eq_true, if_true]
      constructor
      · rintro (hc | hc)
        · rw [Prod.mk.injEq] at hc
          rw [hc.2]
        · exact absurd hc hnot
      · intro hc
        exact Or.inl (by rw [Option.some_inj.mp hc])
    · have hfg : f ≠ g := fun hc => hgf hc.symm
      simp [lookup, hgf, ihr, Prod.ext_iff, hfg]

theorem countP_key_eq_one (st : Registry) (h : (keys st).Nodup) (f : Func)
    (hf : f ∈ keys st) : st.countP (fun p => p.1 == f) = 1 := by
  induction st with
  | nil => simp [keys] at hf
  | cons p rest ih =>
    simp only [keys, List.map_cons, List.nodup_cons] at h
    simp only [keys, List.map_cons, List.mem_cons] at hf
    rw [List.countP_cons]
    by_cases hpf : p.1 = f
    · have hrest : rest.countP (fun p => p.1 == f) = 0 := by
        rw [List.countP_eq_zero]
        intro q hq hbad
        rw [beq_iff_eq] at hbad
        exact h.1 (List.mem_map.mpr ⟨q, hq, by rw [hbad, hpf]⟩)
      simp [hrest, hpf]
    · have hfrest : f ∈ keys rest := by
        rcases hf with hc | hc
        · exact absurd hc.symm hpf
        · exact hc
      have := ih (by simpa [keys] using h.2) hfrest
      simp [this, hpf]

theorem mem_keys_of_mem (st : Registry) (f : Func) (c : Args)
    (h : (f, c) ∈ st) : f ∈ keys st :=
  List.mem_map.mpr ⟨(f, c), h, rfl⟩

theorem not_mem_keys_dictRemove (st : Registry) (h : (keys st).Nodup)
    (f : Func) : f ∉ keys (dictRemove st f) := by
  induction st with
  | nil => simp [dictRemove, keys]
  | cons p rest ih =>
    simp only [keys, List.map_cons, List.nodup_cons] at h
    by_cases hp : p.1 = f
    · intro hc
      rw [dictRemove] at hc
      rw [if_pos (by simp [hp])] at hc
      exact h.1 (by rw [hp]; exact hc)
    · intro hc
      rw [dictRemove] at hc
      rw [if_neg (by simp [hp])] at hc
      simp only [keys, List.map_cons, List.mem_cons] at hc
      rcases hc with hc2 | hc2
      · exact hp hc2.symm
      · exact ih (by simpa [keys] using h.2) hc2

theorem unregister_of_not_mem (st : Registry) (f : Func)
    (hf : f ∉ keys st) : unregister st f = st := by
  have hc : containsKey st f = false := by
    cases hcb : containsKey st f with
    | false => rfl
    | true => exact absurd ((containsKey_iff st f).mp hcb) hf
  simp [unregister, hc]

theorem not_mem_keys_unregister (st : Registry) (h : (keys st).Nodup)
    (f : Func) : f ∉ keys (unregister st f) := by
  by_cases hc : containsKey st f
  · simpa [unregister, hc] using not_mem_keys_dictRemove st h f
  · intro hm
    exact hc ((containsKey_iff st f).mpr (by simpa [unregister, hc] using hm))

/-- C1: when a registered callback raises an exception other than
`SystemExit` during `_run_handlers`, the exception's class, value and
traceback are captured and a report of it is printed whose traceback skips
the first frame (the internal invocation frame inside the callback loop,
skipped via `tb_next` on the `sys.exc_info()` traceback), and every
registered callback is still invoked. -/
theorem nonexit_exception_reported (b : Behavior) (st : Registry)
    (f : Func) (a : Args) (typ : ExcClass) (val : String) (tb : Traceback)
    (hmem : (f, a) ∈ st) (hb : b f a = .raises typ val tb)
    (hne : typ ≠ .systemExit) :
    ∃ evts, run_handlers b st = .ok evts ∧
      Event.report typ val (tb_next (excInfoTb tb)) ∈ evts ∧
      tb_next (excInfoTb tb) = tb ∧
      ∀ g c, (g, c) ∈ st → Event.invoke g c ∈ evts := by
  refine ⟨eventsOf b st, run_handlers_eq b st, ?_, rfl, fun g c hgc =>
    (invoke_mem_eventsOf_iff b st g c).mpr hgc⟩
  rw [tb_next_excInfoTb]
  exact report_mem_eventsOf b st f a typ val tb hmem hb hne

/-- C2: when a registered callback raises `SystemExit` during
`_run_handlers`, the exception is swallowed silently — the callback's
contribution to the event trace is just its invocation, with no report, and
the total number of printed reports counts only the callbacks raising a
non-`SystemExit` exception — nothing propagates, and every registered
callback is still invoked. -/
theorem systemexit_swallowed (b : Behavior) (st : Registry)
    (f : Func) (a : Args) (val : String) (tb : Traceback)
    (hmem : (f, a) ∈ st) (hb : b f a = .raises .systemExit val tb) :
    ∃ evts, run_handlers b st = .ok evts ∧
      entryEvents b (f, a) = [Event.invoke f a] ∧
      raisesNonExit b (f, a) = false ∧
      evts.countP isReport = st.countP (raisesNonExit b) ∧
      ∀ g c, (g, c) ∈ st → Event.invoke g c ∈ evts := by
  refine ⟨eventsOf b st, run_handlers_eq b st, ?_, ?_,
    countP_isReport_eventsOf b st, fun g c hgc =>
    (invoke_mem_eventsOf_iff b st g c).mpr hgc⟩
  · simp [entryEvents, hb]
  · simp [raisesNonExit, hb]

/-- C3: `_newhook` invokes the previously captured hook first, with exactly
the same exception triple it received, when one was captured; when none was
captured that step is skipped without error; in both cases it then runs all
registered callbacks. -/
theorem newhook_chains_oldhook (b : Behavior) (st : Registry)
    (typ : ExcClass) (val : String) (tb : Traceback) :
    ∃ evts, run_handlers b st = .ok evts ∧
      newhook true b st typ val tb = .ok (.oldHook typ val tb :: evts) ∧
      newhook false b st typ val tb = .ok evts ∧
      ∀ g c, (g, c) ∈ st → Event.invoke g c ∈ evts := by
  refine ⟨eventsOf b st, run_handlers_eq b st, ?_, ?_, fun g c hgc =>
    (invoke_mem_eventsOf_iff b st g c).mpr hgc⟩
  · simp [newhook, run_handlers_eq, Except.map]
  · simp [newhook, run_handlers_eq, Except.map]

/-- C4: whatever the registered callbacks and whatever exceptions they
raise, `_run_handlers` returns normally and so does `_newhook`: no
exception raised by a registered callback escapes the mechanism. -/
theorem run_handlers_never_escapes (b : Behavior) (st : Registry) :
    (∃ evts, run_handlers b st = .ok evts) ∧
    ∀ oldhook typ val tb, ∃ evts2, newhook oldhook b st typ val tb = .ok evts2 := by
  refine ⟨⟨eventsOf b st, run_handlers_eq b st⟩, fun oldhook typ val tb => ?_⟩
  refine ⟨(if oldhook then [Event.oldHook typ val tb] else []) ++ eventsOf b st, ?_⟩
  simp [newhook, run_handlers_eq, Except.map]

/-- C5: each entry of the registry is invoked exactly once per crash event,
with its stored arguments: the trace contains the invocation of `f` with
its stored `(args, kwargs)` and the total number of invocations of `f` is
one. -/
theorem registered_invoked_exactly_once (b : Behavior) (st : Registry)
    (hnd : (keys st).Nodup) (f : Func) (a : Args) (hmem : (f, a) ∈ st) :
    ∃ evts, run_handlers b st = .ok evts ∧
      Event.invoke f a ∈ evts ∧
      evts.countP (isInvokeOf f) = 1 := by
  refine ⟨eventsOf b st, run_handlers_eq b st,
    (invoke_mem_eventsOf_iff b st f a).mpr hmem, ?_⟩
  rw [countP_isInvokeOf_eventsOf]
  exact countP_key_eq_one st hnd f (mem_keys_of_mem st f a hmem)

/-- C6: registering the same callable twice leaves a single entry for it,
holding the latest arguments; the key set stays duplicate-free, the stored
value is the latest one, and at crash time the callable is invoked with the
latest arguments only. -/
theorem reregister_replaces (st : Registry) (f : Func) (a1 a2 : Args)
    (hnd : (keys st).Nodup) :
    (keys ((register (register st f a1).1 f a2).1)).Nodup ∧
    ((register (register st f a1).1 f a2).1).countP (fun p => p.1 == f) = 1 ∧
    lookup ((register (register st f a1).1 f a2).1) f = some a2 ∧
    (∀ c, (f, c) ∈ (register (register st f a1).1 f a2).1 → c = a2) ∧
    ∀ b, ∃ evts,
      run_handlers b ((register (register st f a1).1 f a2).1) = .ok evts ∧
      Event.invoke f a2 ∈ evts ∧
      ∀ c, Event.invoke f c ∈ evts → c = a2 := by
  have h1 : (keys ((register st f a1).1)).Nodup := nodup_keys_dictInsert st f a1 hnd
  have h2 : (keys ((register (register st f a1).1 f a2).1)).Nodup :=
    nodup_keys_dictInsert _ f a2 h1
  have hlook : lookup ((register (register st f a1).1 f a2).1) f = some a2 :=
    lookup_dictInsert_self _ f a2
  have hmem2 : (f, a2) ∈ (register (register st f a1).1 f a2).1 :=
    (mem_iff_lookup _ h2 f a2).mpr hlook
  have huniq : ∀ c, (f, c) ∈ (register (register st f a1).1 f a2).1 → c = a2 := by
    intro c hc
    have h3 := (mem_iff_lookup _ h2 f c).mp hc
    rw [hlook] at h3
    exact (Option.some_inj.mp h3).symm
  refine ⟨h2, countP_key_eq_one _ h2 f (mem_keys_of_mem _ f a2 hmem2), hlook,
    huniq, fun b => ⟨eventsOf b _, run_handlers_eq b _,
    (invoke_mem_eventsOf_iff b _ f a2).mpr hmem2, fun c hc =>
    huniq c ((invoke_mem_eventsOf_iff b _ f c).mp hc)⟩⟩

/-- C7: `unregister` removes the callable's entry so it is not invoked on a
subsequent crash; on a callable with no entry it is a no-op that raises no
error; and it is idempotent. -/
theorem unregister_removes_idempotent (st : Registry) (f : Func) (a : Args)
    (hnd : (keys st).Nodup) :
    (∀ c, (f, c) ∉ unregister (register st f a).1 f) ∧
    (f ∉ keys st → unregister st f = st) ∧
    unregister (unregister st f) f = unregister st f ∧
    ∀ b, ∃ evts,
      run_handlers b (unregister (register st f a).1 f) = .ok evts ∧
      ∀ c, Event.invoke f c ∉ evts := by
  have h1 : (keys ((register st f a).1)).Nodup := nodup_keys_dictInsert st f a hnd
  have hout : f ∉ keys (unregister (register st f a).1 f) :=
    not_mem_keys_unregister _ h1 f
  have hnotmem : ∀ c, (f, c) ∉ unregister (register st f a).1 f := fun c hc =>
    hout (mem_keys_of_mem _ f c hc)
  refine ⟨hnotmem, unregister_of_not_mem st f, ?_, fun b =>
    ⟨eventsOf b _, run_handlers_eq b _, fun c hc =>
      hnotmem c ((invoke_mem_eventsOf_iff b _ f c).mp hc)⟩⟩
  exact unregister_of_not_mem _ f (not_mem_keys_unregister st hnd f)

/-- C8: `register` returns the very callback it was given (so it is usable
as a decorator) and always succeeds, its effect being the registry
update. -/
theorem register_returns_callback (st : Registry) (f : Func) (a : Args) :
    (register st f a).2 = f ∧ lookup (register st f a).1 f = some a :=
  ⟨rfl, lookup_dictInsert_self st f a⟩

/-- C9: `register` and `unregister` leave the entry of every callable other
than the one they were given unchanged. -/
theorem register_unregister_frame (st : Registry) (f g : Func) (a : Args)
    (hne : g ≠ f) :
    lookup (register st f a).1 g = lookup st g ∧
    lookup (unregister st f) g = lookup st g := by
  refine ⟨lookup_dictInsert_ne st f g a hne, ?_⟩
  unfold unregister
  by_cases hc : containsKey st f
  · simp [hc, lookup_dictRemove_ne st f g hne]
  · simp [hc]

/-- C10: a registered callback raising an exception that does not derive
from the ordinary `Exception` base class and is not `SystemExit` (such as
`KeyboardInterrupt`) is still caught by the bare except clause: the
exception is reported and every registered callback is still invoked. -/
theorem non_exception_class_reported (b : Behavior) (st : Registry)
    (f : Func) (a : Args) (typ : ExcClass) (val : String) (tb : Traceback)
    (hmem : (f, a) ∈ st) (hb : b f a = .raises typ val tb)
    (hder : derivesException typ = false) (hne : typ ≠ .systemExit) :
    ∃ evts, run_handlers b st = .ok evts ∧
      Event.report typ val tb ∈ evts ∧
      ∀ g c, (g, c) ∈ st → Event.invoke g c ∈ evts :=
  ⟨eventsOf b st, run_handlers_eq b st,
    report_mem_eventsOf b st f a typ val tb hmem hb hne, fun g c hgc =>
    (invoke_mem_eventsOf_iff b st g c).mpr hgc⟩

/-- A concrete behavior for witnesses: callable 0 raises a `ValueError`,
callable 1 raises `SystemExit`, callable 2 raises `KeyboardInterrupt`, and
every other callable returns normally. -/
def wBehavior : Behavior := fun f _ =>
  if f == 0 then .raises (.exception "ValueError") "boom" [⟨"flaky"⟩]
  else if f == 1 then .raises .systemExit "0" []
  else if f == 2 then .raises .keyboardInterrupt "interrupt" []
  else .ok

/-- A concrete registry holding the three raising callables of `wBehavior`
and a well-behaved one with keyword arguments. -/
def wRegistry : Registry :=
  [(0, ⟨[1], []⟩), (1, ⟨[], []⟩), (2, ⟨[], []⟩), (3, ⟨[], [("x", 7)]⟩)]

/-- Witness for C1 at callable 0 of `wBehavior`, which raises
`ValueError("boom")`. -/
theorem nonexit_exception_reported_witness :
    ∃ evts, run_handlers wBehavior wRegistry = .ok evts ∧
      Event.report (.exception "ValueError") "boom"
        (tb_next (excInfoTb [⟨"flaky"⟩])) ∈ evts ∧
      tb_next (excInfoTb [⟨"flaky"⟩]) = [⟨"flaky"⟩] ∧
      ∀ g c, (g, c) ∈ wRegistry → Event.invoke g c ∈ evts :=
  nonexit_exception_reported wBehavior wRegistry 0 ⟨[1], []⟩
    (.exception "ValueError") "boom" [⟨"flaky"⟩] (by decide) rfl (by decide)

/-- Witness for C2 at callable 1 of `wBehavior`, which raises
`SystemExit`. -/
theorem systemexit_swallowed_witness :
    ∃ evts, run_handlers wBehavior wRegistry = .ok evts ∧
      entryEvents wBehavior (1, ⟨[], []⟩) = [Event.invoke 1 ⟨[], []⟩] ∧
      raisesNonExit wBehavior (1, ⟨[], []⟩) = false ∧
      evts.countP isReport = wRegistry.countP (raisesNonExit wBehavior) ∧
      ∀ g c, (g, c) ∈ wRegistry → Event.invoke g c ∈ evts :=
  systemexit_swallowed wBehavior wRegistry 1 ⟨[], []⟩ "0" [] (by decide) rfl

/-- Witness for C5 at the well-behaved callable 3 of `wBehavior`. -/
theorem registered_invoked_exactly_once_witness :
    ∃ evts, run_handlers wBehavior wRegistry = .ok evts ∧
      Event.invoke 3 ⟨[], [("x", 7)]⟩ ∈ evts ∧
      evts.countP (isInvokeOf 3) = 1 :=
  registered_invoked_exactly_once wBehavior wRegistry (by decide) 3
    ⟨[], [("x", 7)]⟩ (by decide)

/-- Witness for C6: registering callable 5 twice on `wRegistry`. -/
theorem reregister_replaces_witness :
    (keys ((register (register wRegistry 5 ⟨[1], []⟩).1 5 ⟨[2], []⟩).1)).Nodup ∧
    ((register (register wRegistry 5 ⟨[1], []⟩).1 5 ⟨[2], []⟩).1).countP
      (fun p => p.1 == 5) = 1 ∧
    lookup ((register (register wRegistry 5 ⟨[1], []⟩).1 5 ⟨[2], []⟩).1) 5 =
      some ⟨[2], []⟩ ∧
    (∀ c, (5, c) ∈ (register (register wRegistry 5 ⟨[1], []⟩).1 5 ⟨[2], []⟩).1 →
      c = ⟨[2], []⟩) ∧
    ∀ b, ∃ evts,
      run_handlers b ((register (register wRegistry 5 ⟨[1], []⟩).1 5 ⟨[2], []⟩).1) =
        .ok evts ∧
      Event.invoke 5 ⟨[2], []⟩ ∈ evts ∧
      ∀ c, Event.invoke 5 c ∈ evts → c = ⟨[2], []⟩ :=
  reregister_replaces wRegistry 5 ⟨[1], []⟩ ⟨[2], []⟩ (by decide)

/-- Witness for C7: registering then unregistering callable 9 on
`wRegistry`. -/
theorem unregister_removes_idempotent_witness :
    (∀ c, (9, c) ∉ unregister (register wRegistry 9 ⟨[], []⟩).1 9) ∧
    ((9 : Func) ∉ keys wRegistry → unregister wRegistry 9 = wRegistry) ∧
    unregister (unregister wRegistry 9) 9 = unregister wRegistry 9 ∧
    ∀ b, ∃ evts,
      run_handlers b (unregister (register wRegistry 9 ⟨[], []⟩).1 9) = .ok evts ∧
      ∀ c, Event.invoke 9 c ∉ evts :=
  unregister_removes_idempotent wRegistry 9 ⟨[], []⟩ (by decide)

/-- Witness for C9: mutations at callable 0 leave the entry of callable 3
unchanged. -/
theorem register_unregister_frame_witness :
    lookup (register wRegistry 0 ⟨[5], []⟩).1 3 = lookup wRegistry 3 ∧
    lookup (unregister wRegistry 0) 3 = lookup wRegistry 3 :=
  register_unregister_frame wRegistry 0 3 ⟨[5], []⟩ (by decide)

/-- Witness for C10 at callable 2 of `wBehavior`, which raises
`KeyboardInterrupt` — a class that does not derive from `Exception`. -/
theorem non_exception_class_reported_witness :
    ∃ evts, run_handlers wBehavior wRegistry = .ok evts ∧
      Event.report .keyboardInterrupt "interrupt" [] ∈ evts ∧
      ∀ g c, (g, c) ∈ wRegistry → Event.invoke g c ∈ evts :=
  non_exception_class_reported wBehavior wRegistry 2 ⟨[], []⟩
    .keyboardInterrupt "interrupt" [] (by decide) rfl rfl (by decide)

end Atexception
